import Mathlib

/-!
Shallow embedding of the randomized-measurement readout-symmetrization core
from `qiskit_experiments_tutorial_part2.ipynb`: the circuit-variant generator
(`RandomizedMeasurement.__init__` / `.circuits`) and the outcome reconciler
(`RandomizedMeasurementAnalysis._run_analysis` / `._swap_bitstring`).

Bitstrings are modelled as `List Char` (Python strings of histogram keys),
histograms as association lists in insertion order (Python `dict` semantics),
and fallible Python code as `Except`-valued functions where an exception
aborts the whole call.
-/

namespace RandMeas

/-- A histogram: Python `dict` mapping bitstring keys to integer counts,
modelled as an association list in insertion order. -/
abbrev Histogram := List (List Char × Nat)

/-- Exceptions that `_run_analysis` can raise:
`stopIteration` from `next(iter(counts))` on an empty counts dict;
`metadataMissing` from `metadata["rm_bits"]` / `metadata["rm_sig"]` key errors
(the spec's `MetadataMissingError`);
`indexError` from `full_sig[bit] = val` or `sig[-1-i]` out of range
(the spec's `BitWidthMismatchError` situation);
`keyError` from `_swap_bit[b]` on a character other than `'0'`/`'1'`. -/
inductive AnalysisError
  | stopIteration
  | metadataMissing
  | indexError
  | keyError
deriving DecidableEq

/-- The `_swap_bit` helper dict `{"0": "1", "1": "0"}`; `none` models a
`KeyError` on any other character. -/
def swapBit (b : Char) : Option Char :=
  if b = '0' then some '1' else if b = '1' then some '0' else none

/-- Python `sig[-1-i]`: negative indexing from the end of the list; an index
past the front raises `IndexError`. -/
def sigAt (sig : List Nat) (i : Nat) : Except AnalysisError Nat :=
  if h : i < sig.length then
    .ok (sig.get ⟨sig.length - 1 - i, by omega⟩)
  else .error .indexError

/-- One element of the comprehension in `_swap_bitstring`:
`cls._swap_bit[b] if sig[-1-i] else b` (the flag is a Python int, truthy iff
nonzero; the dict lookup happens only when the flag is truthy). -/
def swapChar (b : Char) (flag : Nat) : Except AnalysisError Char :=
  if flag ≠ 0 then
    match swapBit b with
    | some c => .ok c
    | none => .error .keyError
  else .ok b

/-- The list comprehension of `_swap_bitstring`, walking the bitstring with
its enumeration index. -/
def swapAux (sig : List Nat) : List Char → Nat → Except AnalysisError (List Char)
  | [], _ => .ok []
  | b :: rest, i =>
    match sigAt sig i with
    | .error e => .error e
    | .ok flag =>
      match swapChar b flag with
      | .error e => .error e
      | .ok c =>
        match swapAux sig rest (i + 1) with
        | .error e => .error e
        | .ok cs => .ok (c :: cs)

/-- `RandomizedMeasurementAnalysis._swap_bitstring(bitstring, sig)`:
per-character substitution driven by `sig[-1-i]`, then `reversed(...)` over
the resulting list before joining. -/
def swapBitstring (bitstring : List Char) (sig : List Nat) :
    Except AnalysisError (List Char) :=
  match swapAux sig bitstring 0 with
  | .error e => .error e
  | .ok cs => .ok cs.reverse

/-- Python `full_sig[bit] = val`: in-place list update, `IndexError` when the
index is out of range. -/
def setAt (l : List Nat) (i v : Nat) : Except AnalysisError (List Nat) :=
  if i < l.length then .ok (l.set i v) else .error .indexError

/-- The loop `for bit, val in zip(clbits, sig): full_sig[bit] = val`. -/
def buildFullSig (fullSig : List Nat) :
    List (Nat × Nat) → Except AnalysisError (List Nat)
  | [] => .ok fullSig
  | (bit, v) :: rest =>
    match setAt fullSig bit v with
    | .error e => .error e
    | .ok l => buildFullSig l rest

/-- The per-circuit metadata side channel read by the analysis: the
`"rm_bits"` and `"rm_sig"` entries, either of which may be absent. -/
structure Metadata where
  rmBits : Option (List Nat)
  rmSig : Option (List Nat)
deriving DecidableEq

/-- One element of `experiment_data.data()`: the outcome counts of one
variant circuit together with its metadata. -/
structure Datum where
  counts : Histogram
  metadata : Metadata
deriving DecidableEq

/-- Accumulation into `combined_counts`: add to an existing key or insert a
fresh entry (Python dict update). -/
def addCount : Histogram → List Char → Nat → Histogram
  | [], k, v => [(k, v)]
  | (k', v') :: rest, k, v =>
    if k' = k then (k', v' + v) :: rest else (k', v') :: addCount rest k v

/-- The inner loop `for key, val in counts.items()` of `_run_analysis`:
untwirl each key with `_swap_bitstring` and accumulate its count. -/
def foldCounts (fullSig : List Nat) :
    Histogram → Histogram → Except AnalysisError Histogram
  | acc, [] => .ok acc
  | acc, (k, v) :: rest =>
    match swapBitstring k fullSig with
    | .error e => .error e
    | .ok bs => foldCounts fullSig (addCount acc bs v) rest

/-- The body of the outer loop of `_run_analysis` for one datum: take
`num_bits` from the first counts key (`next(iter(counts))`, raising
`StopIteration` when empty), look up the metadata, build `full_sig`, and fold
the counts into the accumulator. -/
def processDatum (acc : Histogram) (d : Datum) : Except AnalysisError Histogram :=
  match d.counts with
  | [] => .error .stopIteration
  | (k0, _) :: _ =>
    match d.metadata.rmBits with
    | none => .error .metadataMissing
    | some clbits =>
      match d.metadata.rmSig with
      | none => .error .metadataMissing
      | some sig =>
        match buildFullSig (List.replicate k0.length 0) (clbits.zip sig) with
        | .error e => .error e
        | .ok fullSig => foldCounts fullSig acc d.counts

/-- The outer loop of `_run_analysis` over all data, threading the
`combined_counts` accumulator. -/
def runAnalysis : Histogram → List Datum → Except AnalysisError Histogram
  | acc, [] => .ok acc
  | acc, d :: rest =>
    match processDatum acc d with
    | .error e => .error e
    | .ok acc' => runAnalysis acc' rest

/-- `RandomizedMeasurementAnalysis._run_analysis`: the reconciler, starting
from an empty `combined_counts`. -/
def reconcile (data : List Datum) : Except AnalysisError Histogram :=
  runAnalysis [] data

/-- Total of all values of a histogram. -/
def sumValues (h : Histogram) : Nat := (h.map (·.2)).sum

/-- Total of all counts over all input histograms. -/
def totalCounts (data : List Datum) : Nat :=
  (data.map (fun d => sumValues d.counts)).sum

/-- A key all of whose characters are binary digits. -/
def binKey (k : List Char) : Prop := ∀ c ∈ k, c = '0' ∨ c = '1'

/-! ## Generator side: `RandomizedMeasurement.__init__` and `.circuits` -/

/-- A numpy bit-generator state: `default_rng` on an integer seed is a
deterministic pseudorandom bit stream (PCG64), abstracted here as a pure
stream of booleans together with the position of the next draw. -/
structure Rng where
  stream : Nat → Bool
  pos : Nat

/-- Modelled: the deterministic bit stream produced by numpy `default_rng`
seeded with the integer `seed`; the concrete stream stands in for PCG64,
whose exact bits are irrelevant to every claim. -/
def intStream (seed : Nat) : Nat → Bool := fun i => Nat.testBit seed i

/-- The `seed` argument of `RandomizedMeasurement`: `None`, an integer, or an
already-constructed numpy `Generator`. -/
inductive Seed
  | none
  | int (n : Nat)
  | gen (g : Rng)

/-- `default_rng(seed)` as used in `circuits`: a `Generator` is used as is,
an integer seeds a deterministic stream, and `None` draws fresh operating
system entropy, modelled as an explicit ambient entropy stream. -/
def defaultRng (seed : Seed) (entropy : Nat → Bool) : Rng :=
  match seed with
  | .gen g => g
  | .int n => ⟨intStream n, 0⟩
  | .none => ⟨entropy, 0⟩

/-- Draw `n` bits from the generator, advancing its position. -/
def drawBits (rng : Rng) (n : Nat) : List Bool × Rng :=
  ((List.range n).map fun i => rng.stream (rng.pos + i),
   ⟨rng.stream, rng.pos + n⟩)

/-- One random Pauli, phase-free: its symplectic `z` and `x` boolean rows,
one entry per qubit. The measurement outcome is affected only by `x`
(`pauli.x` is what `circuits` records as `rm_sig`), while `z` still consumes
random bits and enters the circuit (and its name). -/
structure PauliRow where
  z : List Bool
  x : List Bool
deriving DecidableEq

/-- `random_pauli_list(num_qubits, size=size, phase=False, seed=rng)`:
draws the `z` matrix and then the `x` matrix row-major from the generator. -/
def randomPauliList (numQubits size : Nat) (rng : Rng) :
    List PauliRow × Rng :=
  let zDraw := drawBits rng (size * numQubits)
  let xDraw := drawBits zDraw.2 (size * numQubits)
  ((List.range size).map fun i =>
    ⟨(List.range numQubits).map fun j => zDraw.1.getD (i * numQubits + j) false,
     (List.range numQubits).map fun j => xDraw.1.getD (i * numQubits + j) false⟩,
   xDraw.2)

/-- One generated variant circuit, reduced to the data the claims concern:
the width of the circuit, the qubit and classical-bit arguments of its
final `measure` instruction, the attached metadata (`rm_bits`, `rm_sig`),
and the Pauli `z` row that also entered the circuit. -/
structure Variant where
  numQubits : Nat
  numClbits : Nat
  measQubits : List Nat
  measClbits : List Nat
  rmBits : List Nat
  rmSig : List Nat
  zPart : List Bool
deriving DecidableEq

/-- The state of a `RandomizedMeasurement` experiment after `__init__`:
the base circuit's qubit and classical-bit counts, the resolved
`measured_qubits` and `physical_qubits` tuples, and the `num_samples` and
`seed` experiment options. -/
structure RandomizedMeasurement where
  circuitNumQubits : Nat
  circuitNumClbits : Nat
  measuredQubits : List Nat
  physicalQubits : List Nat
  numSamples : Option Nat
  seed : Seed

/-- `RandomizedMeasurement.__init__`: `physical_qubits` and `measured_qubits`
default to `range(circuit.num_qubits)`; the options are stored verbatim.
No validation of the measured-qubit indices is performed. The Python
`num_samples` parameter has default value `10`, so a caller omitting it
corresponds to `numSamples := some 10`; passing `None` gives `none`. -/
def init (circuitNumQubits circuitNumClbits : Nat)
    (measuredQubits physicalQubits : Option (List Nat))
    (numSamples : Option Nat) (seed : Seed) : RandomizedMeasurement :=
  { circuitNumQubits := circuitNumQubits
    circuitNumClbits := circuitNumClbits
    measuredQubits := measuredQubits.getD (List.range circuitNumQubits)
    physicalQubits := physicalQubits.getD (List.range circuitNumQubits)
    numSamples := numSamples
    seed := seed }

/-- `self.num_qubits`: the number of physical qubits of the experiment. -/
def RandomizedMeasurement.numQubits (e : RandomizedMeasurement) : Nat :=
  e.physicalQubits.length

/-- The value of `num_samples` used by `circuits`: the stored option, or
`2 ** self.num_qubits` when the option is `None`. -/
def resolvedSamples (e : RandomizedMeasurement) : Nat :=
  match e.numSamples with
  | none => 2 ^ e.numQubits
  | some n => n

/-- The exception raised by the external circuit API (`compose` / `measure`)
on invalid qubit arguments; there is no dedicated validation error in the
source. -/
inductive CircuitsError
  | circuitError
deriving DecidableEq

/-- The conditions under which the qiskit calls in the loop body of
`circuits` succeed: `compose(self._circuit, circ_qubits, circ_clbits)` needs
the base circuit's width to match `self.num_qubits`, and
`compose(pauli, meas_qubits)` needs the measured-qubit indices to be in
range and pairwise distinct. -/
def specOk (e : RandomizedMeasurement) : Bool :=
  decide (e.circuitNumQubits = e.numQubits) &&
  e.measuredQubits.all (fun q => q < e.numQubits) &&
  decide e.measuredQubits.Nodup

/-- One iteration of the loop in `circuits`: build the variant circuit for
one sampled Pauli, with `meas_clbits = range(circ_nc, circ_nc + meas_nc)`
and metadata `rm_bits = meas_clbits`, `rm_sig = pauli.x.astype(int)`. -/
def buildVariant (e : RandomizedMeasurement) (p : PauliRow) :
    Except CircuitsError Variant :=
  if specOk e then
    .ok { numQubits := e.numQubits
          numClbits := e.circuitNumClbits + e.measuredQubits.length
          measQubits := e.measuredQubits
          measClbits := List.range' e.circuitNumClbits e.measuredQubits.length
          rmBits := List.range' e.circuitNumClbits e.measuredQubits.length
          rmSig := p.x.map (fun b => if b then 1 else 0)
          zPart := p.z }
  else .error .circuitError

/-- The loop of `circuits` over the sampled Pauli list; the first exception
aborts the whole call. -/
def buildVariants (e : RandomizedMeasurement) :
    List PauliRow → Except CircuitsError (List Variant)
  | [] => .ok []
  | p :: rest =>
    match buildVariant e p with
    | .error err => .error err
    | .ok v =>
      match buildVariants e rest with
      | .error err => .error err
      | .ok vs => .ok (v :: vs)

/-- `RandomizedMeasurement.circuits`: resolve the sample count, construct the
generator from the seed (`entropy` models the operating-system entropy used
only when the seed is `None`), sample the Pauli list, and build one variant
per Pauli. -/
def circuits (e : RandomizedMeasurement) (entropy : Nat → Bool) :
    Except CircuitsError (List Variant) :=
  buildVariants e
    (randomPauliList e.measuredQubits.length (resolvedSamples e)
      (defaultRng e.seed entropy)).1

/-- Decidable equality of `Except` values, for evaluating the model at
concrete inputs. -/
instance {ε α : Type} [DecidableEq ε] [DecidableEq α] :
    DecidableEq (Except ε α) := fun a b =>
  match a, b with
  | .error x, .error y =>
    if h : x = y then .isTrue (by rw [h])
    else .isFalse (by intro hc; cases hc; exact h rfl)
  | .error _, .ok _ => .isFalse (by intro hc; cases hc)
  | .ok _, .error _ => .isFalse (by intro hc; cases hc)
  | .ok x, .ok y =>
    if h : x = y then .isTrue (by rw [h])
    else .isFalse (by intro hc; cases hc; exact h rfl)

/-! ## Concrete inputs used in witnesses and counterexamples -/

/-- An all-false ambient entropy stream. -/
def entF : Nat → Bool := fun _ => false

/-- An all-true ambient entropy stream. -/
def entT : Nat → Bool := fun _ => true

/-- Two variant results: the claimed untwirl example, and a one-bit variant
with the identity pattern. -/
def data2 : List Datum :=
  [⟨[(['1', '0'], 5)], ⟨some [0, 1], some [1, 0]⟩⟩,
   ⟨[(['0'], 2), (['1'], 3)], ⟨some [0], some [0]⟩⟩]

/-- The combined histogram produced by `reconcile data2`. -/
def m2 : Histogram := [(['1', '1'], 5), (['0'], 2), (['1'], 3)]

/-- A datum whose metadata lacks the `rm_bits` entry. -/
def d8 : Datum := ⟨[(['0'], 1)], ⟨none, some []⟩⟩

/-- A single variant with a one-qubit pattern whose histogram keys have two
bits (`rm_bits = [1]`, pattern `[1]`, key `"10"`). -/
def data9 : List Datum := [⟨[(['1', '0'], 3)], ⟨some [1], some [1]⟩⟩]

/-- The combined histogram produced by `reconcile data9`: one full-width
(two-character) key. -/
def m9 : Histogram := [(['0', '0'], 3)]

/-- One measured qubit of one, one sample, seed `None`. -/
def e4 : RandomizedMeasurement := init 1 0 (some [0]) none (some 1) Seed.none

/-- One measured qubit of one, one sample, integer seed `7`. -/
def e4w : RandomizedMeasurement := init 1 0 (some [0]) none (some 1) (Seed.int 7)

/-- Two qubits with three pre-existing classical bits, measured qubits
`(1, 0)`, one sample, integer seed. -/
def e5 : RandomizedMeasurement := init 2 3 (some [1, 0]) none (some 1) (Seed.int 0)

/-- The single variant produced by `circuits e5`. -/
def v5 : Variant :=
  { numQubits := 2, numClbits := 5, measQubits := [1, 0], measClbits := [3, 4],
    rmBits := [3, 4], rmSig := [0, 0], zPart := [false, false] }

/-- Two qubits, one measured qubit, `num_samples = None`. -/
def e6 : RandomizedMeasurement := init 2 0 (some [0]) none none (Seed.int 0)

/-- One qubit, default measured qubits, `num_samples = None`. -/
def e6w : RandomizedMeasurement := init 1 0 none none none (Seed.int 0)

/-- The variant produced (twice) by `circuits e6w`. -/
def v6 : Variant :=
  { numQubits := 1, numClbits := 1, measQubits := [0], measClbits := [0],
    rmBits := [0], rmSig := [0], zPart := [false] }

/-- A one-qubit circuit with an out-of-range measured-qubit index `5` and
sample count `0`. -/
def e7 : RandomizedMeasurement := init 1 0 (some [5]) none (some 0) (Seed.int 0)

/-- A one-qubit circuit with an out-of-range measured-qubit index `5` and
sample count `1`. -/
def e7w : RandomizedMeasurement := init 1 0 (some [5]) none (some 1) (Seed.int 0)

/-! ## Theorems -/

/-- C1: on the claimed input — a single Variant with pattern `[true, false]`
over 2 measured qubits (`rm_bits = [0, 1]`, `rm_sig = [1, 0]`) and the
OutcomeHistogram mapping `"10"` to 5 — `reconcile` returns the histogram
mapping `"11"` to 5, not the claimed `{"00": 5}`: the untwirl step reverses
the bitstring after flipping, so it is not a same-order per-bit
exclusive-or. -/
theorem C1_untwirl_example :
    reconcile [⟨[(['1', '0'], 5)], ⟨some [0, 1], some [1, 0]⟩⟩] =
      .ok [(['1', '1'], 5)] ∧ (['1', '1'] : List Char) ≠ ['0', '0'] :=
  ⟨rfl, by decide⟩

/-- C3: a Variant whose TwirlPattern is all false (`rm_sig = [0, 0]`) does
not act as the identity: the input bitstring `"10"` is mapped to its
reversal `"01"`, so the combined histogram differs from the input one. -/
theorem C3_identity_pattern :
    reconcile [⟨[(['1', '0'], 5)], ⟨some [0, 1], some [0, 0]⟩⟩] =
      .ok [(['0', '1'], 5)] ∧ (['0', '1'] : List Char) ≠ ['1', '0'] :=
  ⟨rfl, by decide⟩

/-- C10: `reconcile` applied to an empty sequence of pairs succeeds and
returns the empty combined histogram. -/
theorem C10_empty_reconcile : reconcile [] = .ok [] := rfl

/-- C4 (amended): for an integer seed, `circuits` does not consult the
ambient operating-system entropy, so two runs with the same seed produce
bit-identical sequences of Variants. -/
theorem C4_int_seed_deterministic (e : RandomizedMeasurement) (n : Nat)
    (h : e.seed = Seed.int n) (ent1 ent2 : Nat → Bool) :
    circuits e ent1 = circuits e ent2 := by
  have hr : defaultRng e.seed ent1 = defaultRng e.seed ent2 := by
    rw [h]; rfl
  unfold circuits
  rw [hr]

/-- C4 witness: the determinism theorem applied to a concrete experiment
with integer seed 7 and two different entropy streams. -/
theorem C4_int_seed_deterministic_witness :
    e4w.seed = Seed.int 7 ∧ circuits e4w entF = circuits e4w entT :=
  ⟨rfl, C4_int_seed_deterministic e4w 7 rfl entF entT⟩

/-- C4 counterexample: with seed `None` (the default), `circuits` draws
fresh entropy, and two runs under different entropy disagree — the claim is
false for the seed value `None`. -/
theorem C4_seed_none_nondeterministic :
    circuits e4 entF ≠ circuits e4 entT := by decide

/-- C6 counterexample: for a 2-qubit experiment measuring only qubit 0
(`k = 1`) with `num_samples = None`, `circuits` produces 4 variants,
not `2 ^ k = 2`. -/
theorem C6_counterexample :
    (circuits e6 entF).map List.length = .ok 4 ∧
    4 ≠ 2 ^ e6.measuredQubits.length :=
  ⟨rfl, by decide⟩

/-- C7 counterexample: with an out-of-range measured-qubit index but sample
count `0`, `circuits` performs no validation at all and returns an empty
sequence of Variants instead of failing. -/
theorem C7_counterexample : circuits e7 entF = .ok [] := rfl

/-- C8 counterexample: a Variant lacking both metadata entries but paired
with an empty histogram makes `reconcile` fail with the empty-counts
(`StopIteration`) error, not with `MetadataMissingError`: the code inspects
the first bitstring before reading the metadata. -/
theorem C8_counterexample :
    reconcile [⟨[], ⟨none, none⟩⟩] = .error .stopIteration ∧
    AnalysisError.stopIteration ≠ AnalysisError.metadataMissing :=
  ⟨rfl, by decide⟩

/-- C9 counterexample: a Variant with a one-bit pattern (`k = 1`,
`rm_bits = [1]`, `rm_sig = [1]`) and a two-bit outcome key produces a
combined-histogram key of length 2, outside the claimed key space
of bitstrings of length `k = 1`: the reconciler never restricts keys to the
measured positions. -/
theorem C9_counterexample :
    reconcile data9 = .ok m9 ∧ (['0', '0'] : List Char).length ≠ 1 ∧
    (['0', '0'], 3) ∈ m9 :=
  ⟨rfl, by decide, by decide⟩

/-- Accumulating a count adds exactly that count to the histogram total. -/
theorem sumValues_addCount (acc : Histogram) (k : List Char) (v : Nat) :
    sumValues (addCount acc k v) = sumValues acc + v := by
  induction acc with
  | nil => simp [addCount, sumValues]
  | cons p rest ih =>
    obtain ⟨k', v'⟩ := p
    by_cases h : k' = k
    · simp [addCount, h, sumValues]
      ring
    · simp only [addCount, if_neg h, sumValues, List.map_cons, List.sum_cons]
      simp only [sumValues] at ih
      omega

/-- The inner counts loop adds the full total of the processed histogram to
the accumulator total. -/
theorem foldCounts_sum (fs : List Nat) (counts acc m : Histogram)
    (h : foldCounts fs acc counts = .ok m) :
    sumValues m = sumValues acc + sumValues counts := by
  induction counts generalizing acc with
  | nil =>
    simp only [foldCounts] at h
    cases h
    simp [sumValues]
  | cons p rest ih =>
    obtain ⟨k, v⟩ := p
    simp only [foldCounts] at h
    cases hs : swapBitstring k fs with
    | error e => rw [hs] at h; cases h
    | ok bs =>
      rw [hs] at h
      have := ih _ h
      rw [this, sumValues_addCount]
      simp only [sumValues, List.map_cons, List.sum_cons]
      ring

/-- Processing one datum adds exactly its histogram total. -/
theorem processDatum_sum (acc : Histogram) (d : Datum) (m : Histogram)
    (h : processDatum acc d = .ok m) :
    sumValues m = sumValues acc + sumValues d.counts := by
  obtain ⟨counts, mBits, mSig⟩ := d
  cases counts with
  | nil => cases h
  | cons p rest =>
    obtain ⟨k0, v0⟩ := p
    cases mBits with
    | none => cases h
    | some clbits =>
      cases mSig with
      | none => cases h
      | some sig =>
        simp only [processDatum] at h
        cases hf : buildFullSig (List.replicate k0.length 0) (clbits.zip sig) with
        | error e => rw [hf] at h; cases h
        | ok fullSig =>
          rw [hf] at h
          exact foldCounts_sum fullSig _ acc m h

/-- The outer loop adds the totals of all data to the accumulator total. -/
theorem runAnalysis_sum (data : List Datum) (acc m : Histogram)
    (h : runAnalysis acc data = .ok m) :
    sumValues m = sumValues acc + totalCounts data := by
  induction data generalizing acc with
  | nil =>
    simp only [runAnalysis] at h
    cases h
    simp [totalCounts]
  | cons d rest ih =>
    simp only [runAnalysis] at h
    cases hp : processDatum acc d with
    | error e => rw [hp] at h; cases h
    | ok acc' =>
      rw [hp] at h
      have h2 := ih _ h
      have h1 := processDatum_sum acc d acc' hp
      simp only [totalCounts, List.map_cons, List.sum_cons] at *
      omega

/-- C2: whenever `reconcile` accepts its input (returns a combined
histogram), the total of all combined counts equals the sum of all counts
over all input histograms — no count is lost or duplicated. -/
theorem C2_reconcile_conserves (data : List Datum) (m : Histogram)
    (h : reconcile data = .ok m) : sumValues m = totalCounts data := by
  have := runAnalysis_sum data [] m h
  simpa [sumValues] using this

/-- C2 witness: conservation at a concrete two-variant input with total
count 10. -/
theorem C2_reconcile_conserves_witness :
    reconcile data2 = .ok m2 ∧ sumValues m2 = totalCounts data2 :=
  ⟨rfl, C2_reconcile_conserves data2 m2 rfl⟩

/-- A datum with missing metadata never processes successfully: with an
empty histogram the first-key inspection fails, otherwise the metadata
lookup fails. -/
theorem processDatum_missing (acc : Histogram) (d : Datum)
    (hmiss : d.metadata.rmBits = none ∨ d.metadata.rmSig = none) :
    (processDatum acc d = .error .stopIteration ∧ d.counts = []) ∨
    processDatum acc d = .error .metadataMissing := by
  obtain ⟨counts, mBits, mSig⟩ := d
  cases counts with
  | nil => exact Or.inl ⟨rfl, rfl⟩
  | cons p rest =>
    obtain ⟨k0, v0⟩ := p
    cases mBits with
    | none => exact Or.inr rfl
    | some clbits =>
      cases mSig with
      | none => exact Or.inr rfl
      | some sig =>
        exfalso
        rcases hmiss with h | h <;> simp at h

/-- If any datum of the list lacks its metadata, the outer loop never
returns a histogram. -/
theorem runAnalysis_missing (data : List Datum) (acc : Histogram) (d : Datum)
    (hd : d ∈ data)
    (hmiss : d.metadata.rmBits = none ∨ d.metadata.rmSig = none) :
    (runAnalysis acc data).isOk = false := by
  induction data generalizing acc with
  | nil => cases hd
  | cons d0 rest ih =>
    simp only [runAnalysis]
    rcases List.mem_cons.mp hd with heq | hmem
    · subst heq
      rcases processDatum_missing acc d hmiss with ⟨h1, _⟩ | h1 <;>
        rw [h1] <;> rfl
    · cases hp : processDatum acc d0 with
      | error e => rfl
      | ok acc' => exact ih acc' hmem

/-- C8 (amended): whenever any supplied Variant lacks its recorded
reserved-bit positions or its pattern, `reconcile` fails and no combined
histogram is produced; moreover a `reconcile` call on such a Variant with a
nonempty histogram fails precisely with `MetadataMissingError`. -/
theorem C8_missing_metadata (data : List Datum) (d : Datum) (hd : d ∈ data)
    (hmiss : d.metadata.rmBits = none ∨ d.metadata.rmSig = none) :
    (reconcile data).isOk = false ∧
    (d.counts ≠ [] → reconcile [d] = .error .metadataMissing) := by
  refine ⟨runAnalysis_missing data [] d hd hmiss, fun hne => ?_⟩
  rcases processDatum_missing [] d hmiss with ⟨_, h2⟩ | h1
  · exact absurd h2 hne
  · simp only [reconcile, runAnalysis, h1]

/-- C8 witness: the amended theorem applied to a single Variant with a
nonempty histogram and no `rm_bits` entry. -/
theorem C8_missing_metadata_witness :
    (d8 ∈ [d8] ∧ d8.metadata.rmBits = none) ∧
    ((reconcile [d8]).isOk = false ∧
     (d8.counts ≠ [] → reconcile [d8] = .error .metadataMissing)) :=
  ⟨⟨by simp, rfl⟩, C8_missing_metadata [d8] d8 (by simp) (Or.inl rfl)⟩

/-- A successful `_swap_bit` lookup returns a binary digit. -/
theorem swapBit_ok (b c : Char) (h : swapBit b = some c) :
    c = '0' ∨ c = '1' := by
  unfold swapBit at h
  by_cases h0 : b = '0'
  · simp [h0] at h
    exact Or.inr h.symm
  · by_cases h1 : b = '1'
    · simp [h0, h1] at h
      exact Or.inl h.symm
    · simp [h0, h1] at h

/-- A successful swap of one character either keeps it or produces a
binary digit. -/
theorem swapChar_ok (b : Char) (flag : Nat) (c : Char)
    (h : swapChar b flag = .ok c) : c = b ∨ c = '0' ∨ c = '1' := by
  unfold swapChar at h
  by_cases hf : flag ≠ 0
  · rw [if_pos hf] at h
    cases hb : swapBit b with
    | none => rw [hb] at h; cases h
    | some c' =>
      rw [hb] at h
      injection h with h2
      subst h2
      exact Or.inr (swapBit_ok b _ hb)
  · rw [if_neg hf] at h
    cases h
    exact Or.inl rfl

/-- The comprehension preserves the length of the bitstring. -/
theorem swapAux_length (sig : List Nat) (cs : List Char) (i : Nat)
    (out : List Char) (h : swapAux sig cs i = .ok out) :
    out.length = cs.length := by
  induction cs generalizing i out with
  | nil =>
    simp only [swapAux] at h
    cases h
    rfl
  | cons b rest ih =>
    simp only [swapAux] at h
    split at h
    · cases h
    · split at h
      · cases h
      · split at h
        · cases h
        · cases h
          rename_i cs' hR
          simp [ih (i + 1) cs' hR]

/-- Every character of the comprehension output either comes from the input
bitstring or is a binary digit. -/
theorem swapAux_chars (sig : List Nat) (cs : List Char) (i : Nat)
    (out : List Char) (h : swapAux sig cs i = .ok out) :
    ∀ c ∈ out, c ∈ cs ∨ c = '0' ∨ c = '1' := by
  induction cs generalizing i out with
  | nil =>
    simp only [swapAux] at h
    cases h
    intro c hc
    cases hc
  | cons b rest ih =>
    simp only [swapAux] at h
    split at h
    · cases h
    · split at h
      · cases h
      · split at h
        · cases h
        · cases h
          rename_i c0 hC uu cs' hR
          intro c hc
          rcases List.mem_cons.mp hc with rfl | hmem
          · rcases swapChar_ok b _ c hC with rfl | hbin
            · exact Or.inl (List.mem_cons_self _ _)
            · exact Or.inr hbin
          · rcases ih (i + 1) cs' hR c hmem with hin | hbin
            · exact Or.inl (List.mem_cons_of_mem _ hin)
            · exact Or.inr hbin

/-- `_swap_bitstring` preserves the length of its input. -/
theorem swapBitstring_length (k : List Char) (sig : List Nat)
    (out : List Char) (h : swapBitstring k sig = .ok out) :
    out.length = k.length := by
  unfold swapBitstring at h
  cases hA : swapAux sig k 0 with
  | error e => rw [hA] at h; cases h
  | ok cs =>
    rw [hA] at h
    cases h
    rw [List.length_reverse]
    exact swapAux_length sig k 0 cs hA

/-- If the input of `_swap_bitstring` is a binary string, so is its
output. -/
theorem swapBitstring_binKey (k : List Char) (sig : List Nat)
    (out : List Char) (h : swapBitstring k sig = .ok out) (hk : binKey k) :
    binKey out := by
  unfold swapBitstring at h
  cases hA : swapAux sig k 0 with
  | error e => rw [hA] at h; cases h
  | ok cs =>
    rw [hA] at h
    cases h
    intro c hc
    rw [List.mem_reverse] at hc
    rcases swapAux_chars sig k 0 cs hA c hc with hin | hbin
    · exact hk c hin
    · exact hbin

/-- Every key of `addCount acc k v` is `k` or a key of `acc`. -/
theorem addCount_keys (acc : Histogram) (k : List Char) (v : Nat)
    (p : List Char × Nat) (hp : p ∈ addCount acc k v) :
    p.1 = k ∨ ∃ q ∈ acc, p.1 = q.1 := by
  induction acc with
  | nil =>
    simp only [addCount] at hp
    rcases List.mem_singleton.mp hp with rfl
    exact Or.inl rfl
  | cons q0 rest ih =>
    obtain ⟨k', v'⟩ := q0
    by_cases h : k' = k
    · rw [addCount, if_pos h] at hp
      rcases List.mem_cons.mp hp with rfl | hmem
      · exact Or.inl h
      · exact Or.inr ⟨p, List.mem_cons_of_mem _ hmem, rfl⟩
    · rw [addCount, if_neg h] at hp
      rcases List.mem_cons.mp hp with rfl | hmem
      · exact Or.inr ⟨(k', v'), List.mem_cons_self _ _, rfl⟩
      · rcases ih hmem with h1 | ⟨q, hq, h2⟩
        · exact Or.inl h1
        · exact Or.inr ⟨q, List.mem_cons_of_mem _ hq, h2⟩

/-- Every key surviving the counts loop comes from the accumulator or is the
swap of an input key. -/
theorem foldCounts_keys (fs : List Nat) (counts acc out : Histogram)
    (h : foldCounts fs acc counts = .ok out) (p : List Char × Nat)
    (hp : p ∈ out) :
    (∃ q ∈ acc, p.1 = q.1) ∨
    ∃ e ∈ counts, swapBitstring e.1 fs = .ok p.1 := by
  induction counts generalizing acc with
  | nil =>
    simp only [foldCounts] at h
    cases h
    exact Or.inl ⟨p, hp, rfl⟩
  | cons e0 rest ih =>
    obtain ⟨k, v⟩ := e0
    simp only [foldCounts] at h
    cases hs : swapBitstring k fs with
    | error e => rw [hs] at h; cases h
    | ok bs =>
      rw [hs] at h
      rcases ih (addCount acc bs v) h with ⟨q, hq, hpq⟩ | ⟨e, he, hse⟩
      · rcases addCount_keys acc bs v q hq with h1 | ⟨q', hq', h2⟩
        · refine Or.inr ⟨(k, v), List.mem_cons_self _ _, ?_⟩
          rw [hpq, h1]
          exact hs
        · exact Or.inl ⟨q', hq', by rw [hpq, h2]⟩
      · exact Or.inr ⟨e, List.mem_cons_of_mem _ he, hse⟩

/-- Every key produced by processing one datum comes from the accumulator
or is the swap of one of the datum's keys under some signature. -/
theorem processDatum_keys (acc : Histogram) (d : Datum) (out : Histogram)
    (h : processDatum acc d = .ok out) (p : List Char × Nat) (hp : p ∈ out) :
    (∃ q ∈ acc, p.1 = q.1) ∨
    ∃ fs, ∃ e ∈ d.counts, swapBitstring e.1 fs = .ok p.1 := by
  obtain ⟨counts, mBits, mSig⟩ := d
  cases counts with
  | nil => cases h
  | cons p0 rest =>
    obtain ⟨k0, v0⟩ := p0
    cases mBits with
    | none => cases h
    | some clbits =>
      cases mSig with
      | none => cases h
      | some sig =>
        simp only [processDatum] at h
        cases hf : buildFullSig (List.replicate k0.length 0) (clbits.zip sig) with
        | error e => rw [hf] at h; cases h
        | ok fullSig =>
          rw [hf] at h
          rcases foldCounts_keys fullSig _ acc out h p hp with hacc | ⟨e, he, hse⟩
          · exact Or.inl hacc
          · exact Or.inr ⟨fullSig, e, he, hse⟩

/-- Every key of the final histogram is the swap of an input key of some
datum. -/
theorem runAnalysis_keys (data : List Datum) (acc out : Histogram)
    (h : runAnalysis acc data = .ok out) (p : List Char × Nat)
    (hp : p ∈ out) :
    (∃ q ∈ acc, p.1 = q.1) ∨
    ∃ d ∈ data, ∃ fs, ∃ e ∈ d.counts, swapBitstring e.1 fs = .ok p.1 := by
  induction data generalizing acc with
  | nil =>
    simp only [runAnalysis] at h
    cases h
    exact Or.inl ⟨p, hp, rfl⟩
  | cons d0 rest ih =>
    simp only [runAnalysis] at h
    cases hpr : processDatum acc d0 with
    | error e => rw [hpr] at h; cases h
    | ok acc' =>
      rw [hpr] at h
      rcases ih acc' h with ⟨q, hq, hpq⟩ | ⟨d, hd, fs, e, he, hse⟩
      · rcases processDatum_keys acc d0 acc' hpr q hq with ⟨q', hq', h2⟩ | ⟨fs, e, he, hse⟩
        · exact Or.inl ⟨q', hq', by rw [hpq, h2]⟩
        · refine Or.inr ⟨d0, List.mem_cons_self _ _, fs, e, he, ?_⟩
          rw [← hpq] at hse
          exact hse
      · exact Or.inr ⟨d, List.mem_cons_of_mem _ hd, fs, e, he, hse⟩

/-- C9 (amended): every key of the combined histogram is the untwirled
image of an input bitstring of one of the data: it has the same length as
that full input bitstring (it is not restricted to the `k` measured-qubit
positions), and it is a binary string whenever that input bitstring is. -/
theorem C9_keys_full_width (data : List Datum) (m : Histogram)
    (h : reconcile data = .ok m) (p : List Char × Nat) (hp : p ∈ m) :
    ∃ d ∈ data, ∃ q ∈ d.counts,
      (q.1 : List Char).length = p.1.length ∧ (binKey q.1 → binKey p.1) := by
  rcases runAnalysis_keys data [] m h p hp with ⟨q, hq, _⟩ | ⟨d, hd, fs, e, he, hse⟩
  · cases hq
  · exact ⟨d, hd, e, he, (swapBitstring_length e.1 fs p.1 hse).symm,
      swapBitstring_binKey e.1 fs p.1 hse⟩

/-- C9 witness: the amended theorem at a concrete input whose single key has
width 2 while the pattern has length 1. -/
theorem C9_keys_full_width_witness :
    (reconcile data9 = .ok m9 ∧ (['0', '0'], 3) ∈ m9) ∧
    (∃ d ∈ data9, ∃ q ∈ d.counts,
      (q.1 : List Char).length = (['0', '0'] : List Char).length ∧
      (binKey q.1 → binKey ['0', '0'])) :=
  ⟨⟨rfl, by decide⟩, C9_keys_full_width data9 m9 rfl ((['0', '0'], 3)) (by decide)⟩

/-- Every variant of a successful `buildVariants` run was produced by
`buildVariant` on some sampled Pauli. -/
theorem buildVariants_mem (e : RandomizedMeasurement) (ps : List PauliRow)
    (vs : List Variant) (h : buildVariants e ps = .ok vs) (v : Variant)
    (hv : v ∈ vs) : ∃ p, buildVariant e p = .ok v := by
  induction ps generalizing vs with
  | nil =>
    simp only [buildVariants] at h
    cases h
    cases hv
  | cons p rest ih =>
    simp only [buildVariants] at h
    cases h1 : buildVariant e p with
    | error err => rw [h1] at h; cases h
    | ok v0 =>
      rw [h1] at h
      cases h2 : buildVariants e rest with
      | error err => rw [h2] at h; cases h
      | ok vs0 =>
        rw [h2] at h
        cases h
        rcases List.mem_cons.mp hv with rfl | hm
        · exact ⟨p, h1⟩
        · exact ih vs0 h2 hm

/-- The fields of a successfully built variant. -/
theorem buildVariant_fields (e : RandomizedMeasurement) (p : PauliRow)
    (v : Variant) (h : buildVariant e p = .ok v) :
    v.measQubits = e.measuredQubits ∧
    v.measClbits = List.range' e.circuitNumClbits e.measuredQubits.length := by
  unfold buildVariant at h
  by_cases hs : specOk e
  · rw [if_pos hs] at h
    cases h
    exact ⟨rfl, rfl⟩
  · rw [if_neg hs] at h
    cases h

/-- C5: every Variant produced by a successful `circuits` call measures the
measured qubits, in their given order, into the classical-bit block
`range(circ_nc, circ_nc + meas_nc)`: it starts immediately after the highest
existing classical-bit index, it is contiguous and increasing, it has the
same length as the measured-qubit list, and it is disjoint from the base
circuit's classical bits `0, ..., circ_nc - 1`. -/
theorem C5_reserved_clbits (e : RandomizedMeasurement) (ent : Nat → Bool)
    (vs : List Variant) (h : circuits e ent = .ok vs)
    (v : Variant) (hv : v ∈ vs) :
    v.measQubits = e.measuredQubits ∧
    v.measClbits = List.range' e.circuitNumClbits e.measuredQubits.length ∧
    v.measClbits.length = e.measuredQubits.length ∧
    ∀ b ∈ v.measClbits, e.circuitNumClbits ≤ b := by
  obtain ⟨p, hp⟩ := buildVariants_mem e _ vs h v hv
  obtain ⟨h1, h2⟩ := buildVariant_fields e p v hp
  refine ⟨h1, h2, ?_, ?_⟩
  · rw [h2, List.length_range']
  · intro b hb
    rw [h2] at hb
    exact (List.mem_range'_1.mp hb).1

/-- C5 witness: the layout theorem at a concrete experiment with two qubits,
three pre-existing classical bits and measured qubits `(1, 0)`; the reserved
block is `[3, 4]`. -/
theorem C5_reserved_clbits_witness :
    v5.measQubits = e5.measuredQubits ∧
    v5.measClbits = List.range' e5.circuitNumClbits e5.measuredQubits.length ∧
    v5.measClbits.length = e5.measuredQubits.length ∧
    ∀ b ∈ v5.measClbits, e5.circuitNumClbits ≤ b :=
  C5_reserved_clbits e5 entF [v5] rfl v5 (List.mem_singleton.mpr rfl)

/-- A successful `buildVariants` run yields one variant per sampled Pauli. -/
theorem buildVariants_length (e : RandomizedMeasurement) (ps : List PauliRow)
    (vs : List Variant) (h : buildVariants e ps = .ok vs) :
    vs.length = ps.length := by
  induction ps generalizing vs with
  | nil =>
    simp only [buildVariants] at h
    cases h
    rfl
  | cons p rest ih =>
    simp only [buildVariants] at h
    cases h1 : buildVariant e p with
    | error err => rw [h1] at h; cases h
    | ok v0 =>
      rw [h1] at h
      cases h2 : buildVariants e rest with
      | error err => rw [h2] at h; cases h
      | ok vs0 =>
        rw [h2] at h
        cases h
        simp [ih vs0 h2]

/-- `random_pauli_list` returns exactly `size` sampled Paulis. -/
theorem randomPauliList_length (nq size : Nat) (rng : Rng) :
    (randomPauliList nq size rng).1.length = size := by
  simp [randomPauliList]

/-- C6 (amended): when the `num_samples` option is `None`, `circuits`
produces exactly `2 ^ n` variant circuits where `n = self.num_qubits`, the
total number of qubits of the experiment — not `2 ^ k` for `k` the number of
measured qubits. -/
theorem C6_default_sample_count (e : RandomizedMeasurement)
    (ent : Nat → Bool) (vs : List Variant) (hn : e.numSamples = none)
    (h : circuits e ent = .ok vs) : vs.length = 2 ^ e.numQubits := by
  unfold circuits at h
  rw [buildVariants_length e _ vs h, randomPauliList_length]
  simp [resolvedSamples, hn]

/-- C6 witness: a one-qubit experiment with `num_samples = None` produces
`2 ^ 1 = 2` variants. -/
theorem C6_default_sample_count_witness :
    e6w.numSamples = none ∧ circuits e6w entF = .ok [v6, v6] ∧
    ([v6, v6] : List Variant).length = 2 ^ e6w.numQubits :=
  ⟨rfl, rfl, C6_default_sample_count e6w entF [v6, v6] rfl rfl⟩

/-- A malformed measured-qubit list (an out-of-range index or a duplicate)
fails the validity check performed by the circuit-composition calls. -/
theorem specOk_false (e : RandomizedMeasurement)
    (hbad : (∃ q ∈ e.measuredQubits, e.numQubits ≤ q) ∨
      ¬ e.measuredQubits.Nodup) :
    specOk e = false := by
  rw [Bool.eq_false_iff]
  intro htrue
  simp only [specOk, Bool.and_eq_true, decide_eq_true_eq,
    List.all_eq_true] at htrue
  obtain ⟨⟨h1, h2⟩, h3⟩ := htrue
  rcases hbad with ⟨q, hq, hle⟩ | hnd
  · have := h2 q hq
    simp at this
    omega
  · exact hnd h3

/-- C7 (amended): whenever the resolved sample count is positive and the
measured-qubit indices are out of range or duplicated, `circuits` fails with
the circuit-construction error (raised while composing the first variant;
the source performs no upfront spec validation and defines no dedicated
`InvalidSpecError`), and no sequence of Variants is returned. -/
theorem C7_invalid_spec (e : RandomizedMeasurement) (ent : Nat → Bool)
    (hpos : 0 < resolvedSamples e)
    (hbad : (∃ q ∈ e.measuredQubits, e.numQubits ≤ q) ∨
      ¬ e.measuredQubits.Nodup) :
    circuits e ent = .error .circuitError := by
  unfold circuits
  obtain ⟨p, ps, hps⟩ : ∃ p ps,
      (randomPauliList e.measuredQubits.length (resolvedSamples e)
        (defaultRng e.seed ent)).1 = p :: ps := by
    have hlen := randomPauliList_length e.measuredQubits.length
      (resolvedSamples e) (defaultRng e.seed ent)
    cases hLs : (randomPauliList e.measuredQubits.length (resolvedSamples e)
        (defaultRng e.seed ent)).1 with
    | nil =>
      rw [hLs] at hlen
      simp at hlen
      omega
    | cons p ps => exact ⟨p, ps, rfl⟩
  rw [hps]
  simp [buildVariants, buildVariant, specOk_false e hbad]

/-- C7 witness: the failure theorem at a one-qubit experiment with
out-of-range measured qubit `5` and one sample. -/
theorem C7_invalid_spec_witness :
    (0 < resolvedSamples e7w ∧ (∃ q ∈ e7w.measuredQubits, e7w.numQubits ≤ q)) ∧
    circuits e7w entF = .error .circuitError :=
  ⟨⟨by decide, by decide⟩,
   C7_invalid_spec e7w entF (by decide) (Or.inl (by decide))⟩

end RandMeas
